import Mathlib

/-!
Verification of the audit-event backing-store subsystem of sapcc/go-bits
(package `audittools`): the in-memory, SQL and file backing stores
(`backing_store_memory.go`, the SQL backing store source, `backing_store_file.go`)
and the audit trail loop (`trail.go`).

Shallow embedding conventions:
* `cadf.Event` is an opaque payload; stores are polymorphic in an event type `E`.
* Go errors are modelled by `BSError`; wrapping `ErrBackingStoreFull` via
  `fmt.Errorf("%w: ...", ErrBackingStoreFull, ...)` is modelled by the
  `backingStoreFull` constructor, and `errors.Is(err, ErrBackingStoreFull)`
  by `BSError.isStoreFull`.
* Prometheus metric updates and log lines carry no logical state and are omitted.
* Filesystem and database effects are made explicit as state transformations.
-/

namespace GoBitsAudit

/-- Model of the errors produced by `BackingStore.Write`/`ReadBatch`.
`backingStoreFull cur limit` models an error produced by wrapping
`ErrBackingStoreFull` (backing_store.go line 48) with the current size and limit;
`other` models any other error (I/O failure, marshal failure, ...). -/
inductive BSError where
  | backingStoreFull (curSize limit : Int)
  | other (msg : String)
deriving DecidableEq

/-- Model of `errors.Is(err, ErrBackingStoreFull)`: the error chain produced by
`fmt.Errorf("%w: ...", ErrBackingStoreFull, ...)` matches exactly when the
`backingStoreFull` constructor was used. -/
def BSError.isStoreFull : BSError → Bool
  | .backingStoreFull _ _ => true
  | .other _ => false

/-! ## In-memory backing store (`backing_store_memory.go`)

Runtime state of `InMemoryBackingStore`: the configured `max_events`
(after `Init` has applied the default of 1000 the option is always set, so we
keep a plain `Nat`) and the `events` slice. The mutex serializes `Write` and
`ReadBatch`; in this sequential model each operation is one atomic step. -/
structure InMemoryBackingStore (E : Type) where
  maxEvents : Nat
  events : List E
deriving DecidableEq

namespace InMemoryBackingStore

/-- `InMemoryBackingStore.Write` (backing_store_memory.go lines 94-106):
if `len(s.events) >= maxEvents`, return an error wrapping `ErrBackingStoreFull`;
otherwise append the event. -/
def Write (s : InMemoryBackingStore E) (e : E) :
    Except BSError (InMemoryBackingStore E) :=
  if s.maxEvents ≤ s.events.length then
    .error (.backingStoreFull (s.events.length : Int) (s.maxEvents : Int))
  else
    .ok { s with events := s.events ++ [e] }

end InMemoryBackingStore

/-- Result of a `ReadBatch` call, shared by all three stores.
`noEvents` models the `(nil, nil, nil)` return ("no events are available");
`batch evs commit` models a (possibly empty) event slice together with a
non-nil commit callback. The commit callback is modelled as a state
transformer applied to the store state *at commit time*, mirroring the Go
closures which capture the store pointer and read its state when invoked;
`readError` models a non-nil error return. -/
inductive BatchResult (σ E : Type) where
  | readError (msg : String)
  | noEvents
  | batch (events : List E) (commit : σ → σ)

namespace InMemoryBackingStore

/-- `InMemoryBackingStore.ReadBatch` (backing_store_memory.go lines 109-130):
returns `(nil, nil, nil)` when the slice is empty; otherwise returns a copy of
all buffered events and a commit callback that sets `s.events = nil`
(clearing whatever the slice holds at commit time). The store state itself is
not changed by the read. -/
def ReadBatch (s : InMemoryBackingStore E) :
    BatchResult (InMemoryBackingStore E) E :=
  if s.events.isEmpty then
    .noEvents
  else
    .batch s.events (fun s' => { s' with events := [] })

end InMemoryBackingStore

/-! ## SQL backing store

Rows of the `audit_events` table are modelled as `(id, payload)` pairs kept in
ascending `(created_at, id)` order: `id` is a `BIGSERIAL` (modelled by the
`nextId` counter) and `created_at` defaults to `NOW()`, which is monotone in
insertion order, so the `ORDER BY created_at ASC, id ASC` scan of `ReadBatch`
enumerates the list in order. The externally supplied `*sql.DB` is implicit. -/
structure SQLBackingStore (E : Type) where
  tableName : String
  batchSize : Nat
  maxEvents : Nat
  nextId : Nat
  rows : List (Nat × E)
deriving DecidableEq

/-- `isValidSQLIdentifier`: `name != "" && sqlIdentifierRegex.MatchString(name)`
with `sqlIdentifierRegex = ^[a-zA-Z_][a-zA-Z0-9_]*$`. The regex is unrolled:
the first character must be a letter or underscore, the remaining characters
letters, digits or underscores, and the empty string matches neither the
explicit check nor the regex. -/
def isIdentStart (c : Char) : Bool :=
  (('a' ≤ c && c ≤ 'z') || ('A' ≤ c && c ≤ 'Z') || c = '_')

def isIdentChar (c : Char) : Bool :=
  isIdentStart c || ('0' ≤ c && c ≤ '9')

def isValidSQLIdentifier (name : String) : Bool :=
  match name.data with
  | [] => false
  | c :: cs => isIdentStart c && cs.all isIdentChar

/-- JSON configuration of `SQLBackingStore` (the `table_name`, `batch_size` and
`max_events` params; a missing field is `none`/the empty string). -/
structure SQLConfig where
  tableName : String := ""
  batchSize : Option Nat := none
  maxEvents : Option Nat := none

namespace SQLBackingStore

/-- `SQLBackingStore.Init` (configuration part): defaults the table name to
`"audit_events"` when unset, the batch size to 100 and `max_events` to 10000,
then validates the table name with `isValidSQLIdentifier` and fails with
`audittools: invalid table name` otherwise. Table creation (`ensureTableExists`)
and metric registration carry no logical state and are omitted; the store
starts with an empty table. -/
def Init (E : Type) (cfg : SQLConfig) : Except String (SQLBackingStore E) :=
  let name := if cfg.tableName = "" then "audit_events" else cfg.tableName
  let bs := cfg.batchSize.getD 100
  let me := cfg.maxEvents.getD 10000
  if isValidSQLIdentifier name then
    .ok { tableName := name, batchSize := bs, maxEvents := me, nextId := 0, rows := [] }
  else
    .error ("audittools: invalid table name: " ++ name)

/-- `SQLBackingStore.Write`: counts the rows, returns an error wrapping
`ErrBackingStoreFull` when `count >= maxEvents`, otherwise inserts a new row
(the `BIGSERIAL` assigns the next id, `created_at` the current time). -/
def Write (s : SQLBackingStore E) (e : E) :
    Except BSError (SQLBackingStore E) :=
  if s.maxEvents ≤ s.rows.length then
    .error (.backingStoreFull (s.rows.length : Int) (s.maxEvents : Int))
  else
    .ok { s with rows := s.rows ++ [(s.nextId, e)], nextId := s.nextId + 1 }

/-- `SQLBackingStore.ReadBatch`: selects the oldest `batchSize` rows in
`(created_at, id)` order, returns `(nil, nil, nil)` when no rows were produced,
and otherwise a commit callback (`makeCommitFunc`) that deletes exactly the
returned row ids (`DELETE ... WHERE id = ANY($1)`) from the table state at
commit time. Events stored by this model always unmarshal, so the
corrupted-row skip in the scan loop is never taken. -/
def ReadBatch (s : SQLBackingStore E) : BatchResult (SQLBackingStore E) E :=
  let picked := s.rows.take s.batchSize
  if picked.isEmpty then
    .noEvents
  else
    .batch (picked.map Prod.snd)
      (fun s' =>
        { s' with rows := s'.rows.filter (fun r => !((picked.map Prod.fst).contains r.1)) })

end SQLBackingStore

/-! ## File backing store (`backing_store_file.go`)

A buffer file is a name (the embedded nanosecond creation timestamp) together
with its newline-delimited lines; each line either unmarshals into an event or
is corrupted raw bytes. The store keeps its event files in ascending name
order, which is how `listFiles` (read the directory, filter with `isEventFile`,
`slices.Sort`) presents them: fresh names come from a strictly monotone clock,
so appending keeps the list sorted (the lexicographic-vs-numeric comparison of
the on-disk sort is analysed separately with `fileNameChars`). Dead-letter
files are excluded by `isEventFile` and are modelled as the list of raw lines
routed to them. -/
inductive FileLine (E : Type) where
  | ok (event : E)
  | corrupt (raw : String)
deriving DecidableEq

/-- The parsed event of a line, if any (`json.Unmarshal` succeeding). -/
def FileLine.okEvent : FileLine E → Option E
  | .ok e => some e
  | .corrupt _ => none

/-- The raw bytes of a corrupted line, if any. -/
def FileLine.corruptRaw : FileLine E → Option String
  | .ok _ => none
  | .corrupt r => some r

/-- On-disk size of one line: the serialized bytes plus the trailing newline.
For an event line it is `len(json.Marshal(event)) + 1` (`writeEventToFile`),
given by the size function `esize` that the model takes as a parameter. -/
def lineSize (esize : E → Nat) : FileLine E → Nat
  | .ok e => esize e
  | .corrupt raw => raw.length + 1

structure BufFile (E : Type) where
  name : Nat
  lines : List (FileLine E)
deriving DecidableEq

/-- `os.Stat(path).Size()` of a buffer file. -/
def BufFile.size (esize : E → Nat) (f : BufFile E) : Nat :=
  (f.lines.map (lineSize esize)).sum

/-- Runtime state of `FileBackingStore` after `Init`: the configured limits
(`max_file_size` defaulted to 10 MiB, `max_total_size` defaulted to 0 =
unlimited), the event files of the directory in ascending name order, the
`currentFile` name (`""` = `none`), the cached total size (an `int64` in Go,
hence `Int`), the dead-letter contents, and the model clock `now` feeding
`time.Now().UnixNano()`, strictly larger than every name handed out so far. -/
structure FileBackingStore (E : Type) where
  maxFileSize : Nat
  maxTotalSize : Nat
  files : List (BufFile E)
  currentFile : Option Nat
  cachedTotalSize : Int
  deadLetters : List String
  now : Nat

namespace FileBackingStore

/-- `FileBackingStore.Write` (backing_store_file.go lines 144-170). Step 1,
`getCurrentOrRotatedFile` + the assignment `s.currentFile = targetFile`:
take the current file unless it is unset, missing on disk (`os.IsNotExist`)
or at least `maxFileSize` bytes large (`needsRotation`), in which case a fresh
name is drawn from the clock (`newFileName`). Step 2, `checkTotalSizeLimit`
when `max_total_size > 0`: fail with an error wrapping `ErrBackingStoreFull`
when the cached size is not below the limit; the write happens only after the
check. Step 3, `writeEventToFile`: append the marshalled event and a newline
to the target file (creating it if needed) and add its size to the cache. -/
def Write (esize : E → Nat) (s : FileBackingStore E) (e : E) :
    FileBackingStore E × Option BSError :=
  let fresh : Nat × FileBackingStore E := (s.now, { s with now := s.now + 1 })
  let target : Nat × FileBackingStore E :=
    match s.currentFile with
    | none => fresh
    | some cur =>
      match s.files.find? (fun f => f.name = cur) with
      | none => fresh
      | some f => if s.maxFileSize ≤ f.size esize then fresh else (cur, s)
  let s1 := { target.2 with currentFile := some target.1 }
  if 0 < s.maxTotalSize ∧ (s.maxTotalSize : Int) ≤ s.cachedTotalSize then
    (s1, some (.backingStoreFull s.cachedTotalSize (s.maxTotalSize : Int)))
  else
    let files' :=
      if s1.files.any (fun f => f.name = target.1) then
        s1.files.map (fun f =>
          if f.name = target.1 then { f with lines := f.lines ++ [.ok e] } else f)
      else
        s1.files ++ [{ name := target.1, lines := [.ok e] }]
    ({ s1 with
        files := files'
        cachedTotalSize := s1.cachedTotalSize + (esize e : Int) }, none)

/-- `makeCommitFunc` (backing_store_file.go lines 336-351): at commit time,
read the file size (`getFileSize`, 0 when the file is gone), `os.Remove` the
file, and subtract the size from the cache when it was positive. A missing
file makes `os.Remove` fail, which the callers only log, so the state is
left unchanged in that case. -/
def commitFile (esize : E → Nat) (name : Nat) (s : FileBackingStore E) :
    FileBackingStore E :=
  match s.files.find? (fun f => f.name = name) with
  | none => s
  | some f =>
    { s with
        files := s.files.filter (fun g => !(g.name = name : Bool))
        cachedTotalSize :=
          if 0 < f.size esize then s.cachedTotalSize - (f.size esize : Int)
          else s.cachedTotalSize }

/-- `FileBackingStore.ReadBatch` (backing_store_file.go lines 173-201) with
`readEventsFromFile` inlined: with no event files return `(nil, nil, nil)`;
otherwise take the oldest file, clear `currentFile` when it points at it
(forcing rotation on the next write), parse its lines — every corrupted line
goes verbatim to a dead-letter file (`handleCorruptedEvent`/`writeDeadLetter`),
every parsed event into the batch — and return the events with the commit
callback deleting that file. -/
def ReadBatch (esize : E → Nat) (s : FileBackingStore E) :
    FileBackingStore E × BatchResult (FileBackingStore E) E :=
  match s.files with
  | [] => (s, .noEvents)
  | oldest :: _ =>
    let s1 := if s.currentFile = some oldest.name then { s with currentFile := none } else s
    let s2 := { s1 with deadLetters := s1.deadLetters ++ oldest.lines.filterMap FileLine.corruptRaw }
    (s2, .batch (oldest.lines.filterMap FileLine.okEvent) (commitFile esize oldest.name))

end FileBackingStore

/-! ## The audit trail loop (`trail.go`)

The loop is abstract over the backing store: `write`/`rb` are the store's
`Write`/`ReadBatch` (any implementation of the `BackingStore` interface), and
`publish : E → Bool` is the `sendEvent` outcome (RabbitMQ publish success).
The inbound `EventSink` channel is taken to be empty while draining, so the
`select`-with-`default` arms of `drainBackingStore` take their `default`
branch; those arms only write incoming events to the store and do not
influence batch commits or the returned flag. -/
structure TrailState (σ : Type) where
  store : σ
  backingStoreFull : Bool
deriving DecidableEq

/-- The `case e := <-channelToRead` arm of the loop (trail.go lines 81-94):
try to publish; on failure write to the backing store; if that write also
fails (with any error — the code does not inspect it), set `backingStoreFull`
and drop the event. -/
def receiveEvent (write : σ → E → σ × Option BSError) (publish : E → Bool)
    (st : TrailState σ) (e : E) : TrailState σ :=
  if publish e then st
  else
    match write st.store e with
    | (s', none) => { st with store := s' }
    | (s', some _) => { store := s', backingStoreFull := true }

/-- Result of one `drainBackingStore` pass: the final store state, the
`anyBatchDrained` return value, and a trace of the batches seen — for each
batch returned by `ReadBatch` the events and whether its commit was invoked. -/
structure DrainRes (σ E : Type) where
  store : σ
  drained : Bool
  trace : List (List E × Bool)

/-- `auditTrail.drainBackingStore` (trail.go lines 128-193), with fuel making
the unbounded `for` loop total (the loop itself only terminates by returning).
Per iteration: `ReadBatch`; on error return `anyBatchDrained`; on an empty
batch invoke the commit if one was returned (cleaning up corrupted/empty
files) and return; otherwise publish every event of the batch in order —
`allSent` is `evs.all publish` since the publish outcome is a predicate — and
either commit and continue with `anyBatchDrained = true`, or stop without
committing. -/
def drainLoop (rb : σ → σ × BatchResult σ E) (publish : E → Bool) :
    Nat → σ → Bool → DrainRes σ E
  | 0, s, acc => ⟨s, acc, []⟩
  | fuel + 1, s, acc =>
    match rb s with
    | (s', .readError _) => ⟨s', acc, []⟩
    | (s', .noEvents) => ⟨s', acc, []⟩
    | (s', .batch evs commit) =>
      if evs.isEmpty then ⟨commit s', acc, [(evs, true)]⟩
      else if evs.all publish then
        let r := drainLoop rb publish fuel (commit s') true
        ⟨r.store, r.drained, (evs, true) :: r.trace⟩
      else ⟨s', acc, [(evs, false)]⟩

/-- The `case <-drainTicker.C` arm (trail.go lines 99-105): run a drain pass
and clear the backpressure flag exactly when it was set and the pass drained
at least one batch (`if drained && backingStoreFull { backingStoreFull = false }`). -/
def onDrainTick (rb : σ → σ × BatchResult σ E) (publish : E → Bool) (fuel : Nat)
    (st : TrailState σ) : TrailState σ :=
  let r := drainLoop rb publish fuel st.store false
  { store := r.store, backingStoreFull := st.backingStoreFull && !r.drained }

/-- `ReadBatch` of the in-memory store as a state-passing operation: the read
does not modify the store. -/
def InMemoryBackingStore.ReadBatchS (s : InMemoryBackingStore E) :
    InMemoryBackingStore E × BatchResult (InMemoryBackingStore E) E :=
  (s, s.ReadBatch)

/-- `ReadBatch` of the SQL store as a state-passing operation: the read does
not modify the table. -/
def SQLBackingStore.ReadBatchS (s : SQLBackingStore E) :
    SQLBackingStore E × BatchResult (SQLBackingStore E) E :=
  (s, s.ReadBatch)

/-! ## Buffer file names (`newFileName` / `listFiles`)

`newFileName` produces `audit-events-<ns>.jsonl` with the decimal
`time.Now().UnixNano()`; `listFiles` sorts the directory entries by name with
`slices.Sort`, i.e. Go's byte-wise lexicographic string order. Names are
ASCII, so the byte order coincides with the character order modelled here. -/

/-- The decimal digits of `n`, most significant first — the digits printed by
`fmt.Sprintf("%d", n)` for a non-negative integer. -/
def decDigits (n : Nat) : List Nat :=
  if _h : n < 10 then [n] else decDigits (n / 10) ++ [n % 10]
decreasing_by exact Nat.div_lt_self (by omega) (by omega)

/-- ASCII digit character for a digit value. -/
def digitChar (d : Nat) : Char := Char.ofNat (48 + d)

/-- Byte-wise lexicographic strict order on strings (as character lists) —
the order Go's `<` on `string` implements and `slices.Sort` uses. -/
def lexLt [LinearOrder α] : List α → List α → Bool
  | [], [] => false
  | [], _ :: _ => true
  | _ :: _, [] => false
  | a :: as, b :: bs => if a < b then true else if b < a then false else lexLt as bs

/-- The characters of `fmt.Sprintf("audit-events-%d.jsonl", t)` — the buffer
file name produced by `newFileName` for creation timestamp `t` (the directory
part is shared by all files and dropped). -/
def fileNameChars (t : Nat) : List Char :=
  "audit-events-".data ++ (decDigits t).map digitChar ++ ".jsonl".data

/-! ## Derived operations used by the round-trip properties -/

/-- Writing a sequence of events one after the other, stopping at the first
error. -/
def InMemoryBackingStore.WriteAll :
    InMemoryBackingStore E → List E → Except BSError (InMemoryBackingStore E)
  | s, [] => .ok s
  | s, e :: es =>
    match s.Write e with
    | .ok s' => s'.WriteAll es
    | .error er => .error er

/-- Writing a sequence of events one after the other, stopping at the first
error. -/
def SQLBackingStore.WriteAll :
    SQLBackingStore E → List E → Except BSError (SQLBackingStore E)
  | s, [] => .ok s
  | s, e :: es =>
    match s.Write e with
    | .ok s' => s'.WriteAll es
    | .error er => .error er

/-- `FileBackingStore.Write` with the `(state, error)` pair repackaged as an
`Except` (the state after a failed write is discarded by callers that stop at
the first error). -/
def FileBackingStore.WriteE (esize : E → Nat) (s : FileBackingStore E) (e : E) :
    Except BSError (FileBackingStore E) :=
  match FileBackingStore.Write esize s e with
  | (s', none) => .ok s'
  | (_, some er) => .error er

/-- Writing a sequence of events one after the other, stopping at the first
error. -/
def FileBackingStore.WriteAll (esize : E → Nat) :
    FileBackingStore E → List E → Except BSError (FileBackingStore E)
  | s, [] => .ok s
  | s, e :: es =>
    match FileBackingStore.WriteE esize s e with
    | .ok s' => FileBackingStore.WriteAll esize s' es
    | .error er => .error er

/-- Repeatedly calling `ReadBatch` followed by its commit callback until
`ReadBatch` reports the store empty (or errors), concatenating the returned
batches; fuel bounds the number of iterations. -/
def drainAll (rb : σ → σ × BatchResult σ E) : Nat → σ → List E
  | 0, _ => []
  | fuel + 1, s =>
    match rb s with
    | (_, .readError _) => []
    | (_, .noEvents) => []
    | (s', .batch evs commit) => evs ++ drainAll rb fuel (commit s')

/-- The file store with an empty directory, directly after `Init` (clock
started at 0, no files, no current file, cached size 0). -/
def FileBackingStore.initEmpty (E : Type) (maxFileSize maxTotalSize : Nat) :
    FileBackingStore E :=
  { maxFileSize := maxFileSize, maxTotalSize := maxTotalSize, files := [],
    currentFile := none, cachedTotalSize := 0, deadLetters := [], now := 0 }

/-- All parsed events of the file store, oldest file first — the content the
FIFO property is about. -/
def FileBackingStore.flattenEvents (s : FileBackingStore E) : List E :=
  (s.files.map (fun f => f.lines.filterMap FileLine.okEvent)).flatten

/-- Invariant maintained by `FileBackingStore.Write` starting from an empty
directory: file names are strictly ascending (fresh names come from the
strictly monotone clock), every name is below the clock, the current file (if
set) has the largest name, and every file is a nonempty sequence of
well-formed event lines. -/
def FileBackingStore.WriteInv (s : FileBackingStore E) : Prop :=
  s.files.Pairwise (fun f g => f.name < g.name) ∧
  (∀ f ∈ s.files, f.name < s.now) ∧
  (∀ c, s.currentFile = some c → ∀ f ∈ s.files, f.name ≤ c) ∧
  (∀ f ∈ s.files, f.lines ≠ [] ∧ ∀ l ∈ f.lines, ∃ e, l = FileLine.ok e)

/-- The part of `WriteInv` that `ReadBatch`/commit cycles preserve and the
drain argument needs: ascending names and a nonempty parsed batch per file. -/
def FileBackingStore.ReadInv (s : FileBackingStore E) : Prop :=
  s.files.Pairwise (fun f g => f.name < g.name) ∧
  (∀ f ∈ s.files, f.lines.filterMap FileLine.okEvent ≠ [])

/-! ## Theorems -/

/-- C1: Capacity / StoreFull round-trip. For the in-memory store with maximum
`N`: whenever it holds at least `N` events the next `Write` returns an error
matching `ErrBackingStoreFull` (via `errors.Is`), and after a `ReadBatch`
followed by a commit of at least one event the next `Write` succeeds again.
The analogous property holds for the SQL store with its `max_events` row
bound (for a reachable state: at most `max_events` rows, positive batch size). -/
theorem c1_capacity_storefull_roundtrip :
    (∀ (E : Type) (s : InMemoryBackingStore E) (e : E),
      s.maxEvents ≤ s.events.length →
      ∃ er, s.Write e = .error er ∧ er.isStoreFull = true) ∧
    (∀ (E : Type) (s : InMemoryBackingStore E) (e : E),
      s.events ≠ [] → 1 ≤ s.maxEvents →
      ∃ evs c, s.ReadBatch = .batch evs c ∧ evs ≠ [] ∧
        ∃ s', (c s).Write e = .ok s') ∧
    (∀ (E : Type) (s : SQLBackingStore E) (e : E),
      s.maxEvents ≤ s.rows.length →
      ∃ er, s.Write e = .error er ∧ er.isStoreFull = true) ∧
    (∀ (E : Type) (s : SQLBackingStore E) (e : E),
      s.rows ≠ [] → 1 ≤ s.batchSize → s.rows.length ≤ s.maxEvents →
      ∃ evs c, s.ReadBatch = .batch evs c ∧ evs ≠ [] ∧
        ∃ s', (c s).Write e = .ok s') := by
  refine ⟨?_, ?_, ?_, ?_⟩
  · intro E s e h
    exact ⟨.backingStoreFull s.events.length s.maxEvents,
      by simp [InMemoryBackingStore.Write, h], rfl⟩
  · intro E s e hne hmax
    have hie : s.events.isEmpty = false := by
      cases hEv : s.events with
      | nil => exact absurd hEv hne
      | cons a l => rfl
    refine ⟨s.events, fun s' => { s' with events := [] },
      by simp [InMemoryBackingStore.ReadBatch, hie], hne, ?_⟩
    have h0 : s.maxEvents ≠ 0 := by omega
    exact ⟨⟨s.maxEvents, [e]⟩, by simp [InMemoryBackingStore.Write, h0]⟩
  · intro E s e h
    exact ⟨.backingStoreFull s.rows.length s.maxEvents,
      by simp [SQLBackingStore.Write, h], rfl⟩
  · intro E s e hne hb hm
    obtain ⟨tn, b, m, ni, rows⟩ := s
    dsimp only at hne hb hm ⊢
    cases rows with
    | nil => exact absurd rfl hne
    | cons r rest =>
      obtain ⟨b', rfl⟩ : ∃ b', b = b' + 1 := ⟨b - 1, by omega⟩
      have hrb : SQLBackingStore.ReadBatch ⟨tn, b' + 1, m, ni, r :: rest⟩ =
          .batch ((r :: rest.take b').map Prod.snd)
            (fun s' : SQLBackingStore E =>
              { s' with rows := s'.rows.filter (fun q =>
                  !(((r :: rest.take b').map Prod.fst).contains q.1)) }) := by
        simp [SQLBackingStore.ReadBatch]
      refine ⟨_, _, hrb, by simp, ?_⟩
      have hpr : (fun q : Nat × E =>
          !(((r :: rest.take b').map Prod.fst).contains q.1)) r = false := by
        simp
      have hple : (((r :: rest) : List (Nat × E)).filter (fun q =>
          !(((r :: rest.take b').map Prod.fst).contains q.1))).length ≤ rest.length := by
        rw [List.filter_cons_of_neg (by simp)]
        exact List.length_filter_le _ _
      have hrl : ((r :: rest) : List (Nat × E)).length = rest.length + 1 := rfl
      refine ⟨⟨tn, b' + 1, m, ni + 1,
        ((r :: rest).filter (fun q =>
          !(((r :: rest.take b').map Prod.fst).contains q.1))) ++ [(ni, e)]⟩, ?_⟩
      dsimp only [SQLBackingStore.Write]
      rw [if_neg (by omega)]

/-- Witness for C1 at concrete stores: a full in-memory store with maximum 1,
and a full SQL store with maximum 3, batch size 2. -/
theorem c1_capacity_storefull_roundtrip_witness :
    (∃ er, (⟨1, [0]⟩ : InMemoryBackingStore Nat).Write 7 = .error er ∧
      er.isStoreFull = true) ∧
    (∃ evs c, (⟨1, [0]⟩ : InMemoryBackingStore Nat).ReadBatch = .batch evs c ∧
      evs ≠ [] ∧ ∃ s', (c ⟨1, [0]⟩).Write 7 = .ok s') ∧
    (∃ er, (⟨"audit_events", 2, 3, 3, [(0, 10), (1, 11), (2, 12)]⟩ :
      SQLBackingStore Nat).Write 7 = .error er ∧ er.isStoreFull = true) ∧
    (∃ evs c, (⟨"audit_events", 2, 3, 3, [(0, 10), (1, 11), (2, 12)]⟩ :
      SQLBackingStore Nat).ReadBatch = .batch evs c ∧ evs ≠ [] ∧
      ∃ s', (c ⟨"audit_events", 2, 3, 3, [(0, 10), (1, 11), (2, 12)]⟩).Write 7 = .ok s') :=
  ⟨c1_capacity_storefull_roundtrip.1 Nat ⟨1, [0]⟩ 7 (by decide),
   c1_capacity_storefull_roundtrip.2.1 Nat ⟨1, [0]⟩ 7 (by decide) (by decide),
   c1_capacity_storefull_roundtrip.2.2.1 Nat _ 7 (by decide),
   c1_capacity_storefull_roundtrip.2.2.2 Nat _ 7 (by decide) (by decide) (by decide)⟩

/-- C7 counterexample: `Init` with the empty (unconfigured) table name does
not reject it — it substitutes the default `"audit_events"` and succeeds,
whereas the claimed acceptance condition (match the identifier pattern,
which the empty string does not) would reject it. -/
theorem c7_empty_table_name_accepted :
    SQLBackingStore.Init Nat { tableName := "" } =
      .ok ⟨"audit_events", 100, 10000, 0, []⟩ := by
  rfl

/-- C7 amended: for every configured (non-empty) table name, `Init` succeeds
iff the name matches `^[a-zA-Z_][a-zA-Z0-9_]*$`; the empty name is replaced by
the default `"audit_events"` and accepted. In particular the spec's examples:
`"a; DROP TABLE x;"`, `"audit-events"`, `"1abc"` are rejected,
`"audit_events"`, `"_a1"` accepted. -/
theorem c7_identifier_validation :
    (∀ cfg : SQLConfig, cfg.tableName ≠ "" →
      ((∃ s, SQLBackingStore.Init Nat cfg = .ok s) ↔
        isValidSQLIdentifier cfg.tableName = true)) ∧
    isValidSQLIdentifier "a; DROP TABLE x;" = false ∧
    isValidSQLIdentifier "audit-events" = false ∧
    isValidSQLIdentifier "1abc" = false ∧
    isValidSQLIdentifier "" = false ∧
    isValidSQLIdentifier "audit_events" = true ∧
    isValidSQLIdentifier "_a1" = true ∧
    SQLBackingStore.Init Nat { tableName := "a; DROP TABLE x;" } =
      .error "audittools: invalid table name: a; DROP TABLE x;" ∧
    SQLBackingStore.Init Nat { tableName := "audit-events" } =
      .error "audittools: invalid table name: audit-events" ∧
    SQLBackingStore.Init Nat { tableName := "1abc" } =
      .error "audittools: invalid table name: 1abc" ∧
    (∃ s, SQLBackingStore.Init Nat { tableName := "audit_events" } = .ok s) ∧
    (∃ s, SQLBackingStore.Init Nat { tableName := "_a1" } = .ok s) := by
  refine ⟨?_, rfl, rfl, rfl, rfl, rfl, rfl, rfl, rfl, rfl, ⟨_, rfl⟩, ⟨_, rfl⟩⟩
  intro cfg h
  have hname : (if cfg.tableName = "" then "audit_events" else cfg.tableName)
      = cfg.tableName := if_neg h
  constructor
  · rintro ⟨s, hs⟩
    by_contra hv
    rw [Bool.not_eq_true] at hv
    rw [SQLBackingStore.Init] at hs
    simp only [hname, hv] at hs
    simp at hs
  · intro hv
    refine ⟨⟨cfg.tableName, cfg.batchSize.getD 100, cfg.maxEvents.getD 10000,
      0, []⟩, ?_⟩
    rw [SQLBackingStore.Init]
    simp only [hname, hv, if_true]

/-- Witness for C7 at a concrete configured name: `"_a1"` is non-empty and
`Init` accepts it iff the pattern matches (which it does). -/
theorem c7_identifier_validation_witness :
    ((∃ s, SQLBackingStore.Init Nat { tableName := "_a1" } = .ok s) ↔
      isValidSQLIdentifier "_a1" = true) :=
  c7_identifier_validation.1 { tableName := "_a1" } (by decide)

/-- C3 counterexample: a backing-store `Write` failure that is *not* the
store-full error (here a plain I/O error) still sets the backpressure flag —
the loop flips the flag on any `Write` error without inspecting it, refuting
the claimed "if and only if that Write error is the store-full error". -/
theorem c3_nonfull_write_error_sets_flag :
    (receiveEvent (fun (s : Unit) (_ : Unit) => (s, some (.other "disk error")))
        (fun _ => false) ⟨(), false⟩ ()).backingStoreFull = true ∧
      (BSError.other "disk error").isStoreFull = false :=
  ⟨rfl, rfl⟩

/-- C3 amended: after handling an inbound event, the backpressure flag is set
iff it was already set, or the publish failed and the fallback `Write`
returned *any* error (the event is dropped in every `Write`-failure case);
and a drain tick leaves the flag set exactly when no batch was drained. -/
theorem c3_backpressure_on_any_write_failure :
    (∀ (σ E : Type) (write : σ → E → σ × Option BSError) (publish : E → Bool)
        (st : TrailState σ) (e : E),
      (receiveEvent write publish st e).backingStoreFull =
        (st.backingStoreFull || (!publish e && (write st.store e).2.isSome))) ∧
    (∀ (σ E : Type) (rb : σ → σ × BatchResult σ E) (publish : E → Bool)
        (fuel : Nat) (st : TrailState σ),
      (onDrainTick rb publish fuel st).backingStoreFull =
        (st.backingStoreFull && !(drainLoop rb publish fuel st.store false).drained)) := by
  constructor
  · intro σ E write publish st e
    unfold receiveEvent
    cases hp : publish e with
    | true => simp [hp]
    | false =>
      rcases hw : write st.store e with ⟨s', er⟩
      cases er <;> simp [hw]
  · intro σ E rb publish fuel st
    rfl

/-- The error component of the file store's `Write` is decided by the
total-size check alone (file rotation does not fail in the model). -/
theorem fileWrite_snd_eq (esize : E → Nat) (s : FileBackingStore E) (e : E) :
    (FileBackingStore.Write esize s e).2 =
      if 0 < s.maxTotalSize ∧ (s.maxTotalSize : Int) ≤ s.cachedTotalSize then
        some (.backingStoreFull s.cachedTotalSize (s.maxTotalSize : Int))
      else none := by
  unfold FileBackingStore.Write
  dsimp only
  rw [apply_ite Prod.snd]

/-- On a successful `Write`, the cached total size grows by exactly the
serialized size of the written event. -/
theorem fileWrite_cached_eq (esize : E → Nat) (s : FileBackingStore E) (e : E)
    (hc : ¬(0 < s.maxTotalSize ∧ (s.maxTotalSize : Int) ≤ s.cachedTotalSize)) :
    (FileBackingStore.Write esize s e).1.cachedTotalSize =
      s.cachedTotalSize + (esize e : Int) := by
  unfold FileBackingStore.Write
  rcases hcf : s.currentFile with _ | cur
  · simp only [hcf, apply_ite Prod.fst, if_neg hc]
  · rcases hff : List.find? (fun f => f.name = cur) s.files with _ | f
    · simp only [hcf, hff, apply_ite Prod.fst, if_neg hc]
    · by_cases hsz : s.maxFileSize ≤ f.size esize
      · simp only [hcf, hff, if_pos hsz, apply_ite Prod.fst, if_neg hc]
      · simp only [hcf, hff, if_neg hsz, apply_ite Prod.fst, if_neg hc]

/-- C9: for the file store with `max_total_size = M > 0`, `Write` fails with
the store-full error iff the cached total size at check time is at least `M`;
the check precedes the append, so a `Write` admitted below `M` lands at
`old + size(e) ≤ M - 1 + size(e)` — the bound is best-effort, exceeded by at
most one event's serialized size. -/
theorem c9_total_size_best_effort_bound :
    ∀ (E : Type) (esize : E → Nat) (s : FileBackingStore E) (e : E),
      0 < s.maxTotalSize →
      ((∃ er, (FileBackingStore.Write esize s e).2 = some er ∧ er.isStoreFull = true)
        ↔ (s.maxTotalSize : Int) ≤ s.cachedTotalSize) ∧
      (s.cachedTotalSize < (s.maxTotalSize : Int) →
        (FileBackingStore.Write esize s e).2 = none ∧
        (FileBackingStore.Write esize s e).1.cachedTotalSize =
          s.cachedTotalSize + (esize e : Int) ∧
        (FileBackingStore.Write esize s e).1.cachedTotalSize ≤
          (s.maxTotalSize : Int) - 1 + (esize e : Int)) := by
  intro E esize s e hpos
  constructor
  · constructor
    · rintro ⟨er, her, -⟩
      rw [fileWrite_snd_eq] at her
      by_contra hlt
      rw [if_neg (by exact fun h => hlt h.2)] at her
      exact Option.noConfusion her
    · intro hle
      refine ⟨.backingStoreFull s.cachedTotalSize (s.maxTotalSize : Int), ?_, rfl⟩
      rw [fileWrite_snd_eq, if_pos ⟨hpos, hle⟩]
  · intro hlt
    have hc : ¬(0 < s.maxTotalSize ∧ (s.maxTotalSize : Int) ≤ s.cachedTotalSize) := by
      rintro ⟨-, hle⟩
      omega
    refine ⟨by rw [fileWrite_snd_eq, if_neg hc], fileWrite_cached_eq esize s e hc, ?_⟩
    rw [fileWrite_cached_eq esize s e hc]
    omega

/-- Witness for C9: a file store with limit 100 and cached size 5 admits the
write; the same store with cached size 120 refuses it with the store-full
error. -/
theorem c9_total_size_best_effort_bound_witness :
    ((∃ er, (FileBackingStore.Write (fun n => n + 2)
        (⟨1000, 100, [], none, 5, [], 0⟩ : FileBackingStore Nat) 3).2 = some er ∧
        er.isStoreFull = true) ↔
      ((100 : Nat) : Int) ≤ (5 : Int)) ∧
    ((5 : Int) < ((100 : Nat) : Int) →
      (FileBackingStore.Write (fun n => n + 2)
        (⟨1000, 100, [], none, 5, [], 0⟩ : FileBackingStore Nat) 3).2 = none ∧
      (FileBackingStore.Write (fun n => n + 2)
        (⟨1000, 100, [], none, 5, [], 0⟩ : FileBackingStore Nat) 3).1.cachedTotalSize =
        (5 : Int) + ((3 + 2 : Nat) : Int) ∧
      (FileBackingStore.Write (fun n => n + 2)
        (⟨1000, 100, [], none, 5, [], 0⟩ : FileBackingStore Nat) 3).1.cachedTotalSize ≤
        ((100 : Nat) : Int) - 1 + ((3 + 2 : Nat) : Int)) :=
  c9_total_size_best_effort_bound Nat (fun n => n + 2)
    ⟨1000, 100, [], none, 5, [], 0⟩ 3 (by decide)

/-- C10: the file store's `ReadBatch` distinguishes "store empty" from
"oldest file entirely corrupted": with no buffer files it returns
`(nil, nil, nil)`; when the oldest file has only unparseable lines it routes
every line to the dead-letter store and returns an *empty* event slice with a
*non-nil* commit callback that deletes the emptied file — and the trail drain
loop invokes exactly that commit on an empty batch. -/
theorem c10_empty_store_vs_corrupted_file :
    ∀ (E : Type) (esize : E → Nat),
      (∀ s : FileBackingStore E, s.files = [] →
        FileBackingStore.ReadBatch esize s = (s, .noEvents)) ∧
      (∀ (s : FileBackingStore E) (f : BufFile E) (rest : List (BufFile E))
          (pub : E → Bool) (fuel : Nat),
        s.files = f :: rest →
        (∀ l ∈ f.lines, l.okEvent = none) →
        (∀ g ∈ rest, g.name ≠ f.name) →
        ∃ s' c, FileBackingStore.ReadBatch esize s = (s', .batch [] c) ∧
          s'.deadLetters = s.deadLetters ++ f.lines.filterMap FileLine.corruptRaw ∧
          (c s').files = rest ∧
          drainLoop (FileBackingStore.ReadBatch esize) pub (fuel + 1) s false =
            ⟨c s', false, [([], true)]⟩) := by
  intro E esize
  constructor
  · intro s h
    obtain ⟨mf, mt, files, cf, cts, dl, now⟩ := s
    dsimp only at h
    subst h
    rfl
  · intro s f rest pub fuel hfiles hall hnames
    obtain ⟨mf, mt, files, cf, cts, dl, now⟩ := s
    dsimp only at hfiles
    subst hfiles
    have hfm : f.lines.filterMap FileLine.okEvent = [] := by
      rw [List.filterMap_eq_nil_iff]
      exact hall
    have hcommit : ∀ s'' : FileBackingStore E, s''.files = f :: rest →
        (FileBackingStore.commitFile esize f.name s'').files = rest := by
      intro s'' hs
      have hfind : List.find? (fun g => g.name = f.name) s''.files = some f := by
        rw [hs]
        exact List.find?_cons_of_pos _ (by simp)
      unfold FileBackingStore.commitFile
      rw [hfind]
      dsimp only
      rw [hs, List.filter_cons_of_neg (by simp)]
      rw [List.filter_eq_self.mpr]
      intro g hg
      simp [hnames g hg]
    by_cases hcf : cf = some f.name
    · have hread : FileBackingStore.ReadBatch esize ⟨mf, mt, f :: rest, cf, cts, dl, now⟩ =
          (⟨mf, mt, f :: rest, none, cts,
            dl ++ f.lines.filterMap FileLine.corruptRaw, now⟩,
            .batch [] (FileBackingStore.commitFile esize f.name)) := by
        unfold FileBackingStore.ReadBatch
        dsimp only
        rw [if_pos hcf, hfm]
      refine ⟨_, _, hread, rfl, hcommit _ rfl, ?_⟩
      simp only [drainLoop, hread]
      rfl
    · have hread : FileBackingStore.ReadBatch esize ⟨mf, mt, f :: rest, cf, cts, dl, now⟩ =
          (⟨mf, mt, f :: rest, cf, cts,
            dl ++ f.lines.filterMap FileLine.corruptRaw, now⟩,
            .batch [] (FileBackingStore.commitFile esize f.name)) := by
        unfold FileBackingStore.ReadBatch
        dsimp only
        rw [if_neg hcf, hfm]
      refine ⟨_, _, hread, rfl, hcommit _ rfl, ?_⟩
      simp only [drainLoop, hread]
      rfl

/-- Witness for C10: an empty store returns no-events; a store whose single
file holds one corrupted line returns an empty batch whose commit deletes the
file, dead-lettering the raw line. -/
theorem c10_empty_store_vs_corrupted_file_witness :
    (FileBackingStore.ReadBatch (E := Nat) (fun _ => 1)
      ⟨10, 0, [], none, 0, [], 3⟩ = (⟨10, 0, [], none, 0, [], 3⟩, .noEvents)) ∧
    (∃ s' c, FileBackingStore.ReadBatch (E := Nat) (fun _ => 1)
        ⟨10, 0, [⟨5, [.corrupt "bad json"]⟩], none, 2, [], 6⟩ = (s', .batch [] c) ∧
      s'.deadLetters = [] ++ [.corrupt "bad json"].filterMap
        (FileLine.corruptRaw (E := Nat)) ∧
      (c s').files = [] ∧
      drainLoop (FileBackingStore.ReadBatch (fun _ => 1)) (fun _ => true) (0 + 1)
        (⟨10, 0, [⟨5, [.corrupt "bad json"]⟩], none, 2, [], 6⟩ : FileBackingStore Nat)
        false = ⟨c s', false, [([], true)]⟩) :=
  ⟨(c10_empty_store_vs_corrupted_file Nat (fun _ => 1)).1 _ rfl,
   (c10_empty_store_vs_corrupted_file Nat (fun _ => 1)).2
     ⟨10, 0, [⟨5, [.corrupt "bad json"]⟩], none, 2, [], 6⟩
     ⟨5, [.corrupt "bad json"]⟩ [] (fun _ => true) 0 rfl
     (by intro l hl; simp at hl; subst hl; rfl)
     (by intro g hg; simp at hg)⟩

/-- C6: uncommitted-read safety. A `ReadBatch` whose commit is never invoked
removes nothing: the in-memory store returns its complete event slice and the
SQL store the full batch prefix, both without touching the store; the file
store's read leaves the event files untouched (only `currentFile` and the
dead-letter side channel change), so an immediately repeated `ReadBatch`
returns the same events again. -/
theorem c6_uncommitted_read_safety :
    (∀ (E : Type) (s : InMemoryBackingStore E) (evs : List E)
        (c : InMemoryBackingStore E → InMemoryBackingStore E),
      s.ReadBatch = .batch evs c → evs = s.events) ∧
    (∀ (E : Type) (s : SQLBackingStore E) (evs : List E)
        (c : SQLBackingStore E → SQLBackingStore E),
      s.ReadBatch = .batch evs c → evs = (s.rows.take s.batchSize).map Prod.snd) ∧
    (∀ (E : Type) (esize : E → Nat) (s : FileBackingStore E),
      (FileBackingStore.ReadBatch esize s).1.files = s.files ∧
      (∀ (s' : FileBackingStore E) (evs : List E)
          (c : FileBackingStore E → FileBackingStore E),
        FileBackingStore.ReadBatch esize s = (s', .batch evs c) →
        ∃ s'' c', FileBackingStore.ReadBatch esize s' = (s'', .batch evs c'))) := by
  refine ⟨?_, ?_, ?_⟩
  · intro E s evs c h
    unfold InMemoryBackingStore.ReadBatch at h
    by_cases hie : s.events.isEmpty
    · rw [if_pos hie] at h
      exact BatchResult.noConfusion h
    · rw [if_neg hie] at h
      injection h with h1 h2
      exact h1.symm
  · intro E s evs c h
    unfold SQLBackingStore.ReadBatch at h
    dsimp only at h
    by_cases hie : (s.rows.take s.batchSize).isEmpty
    · rw [if_pos hie] at h
      exact BatchResult.noConfusion h
    · rw [if_neg hie] at h
      injection h with h1 h2
      exact h1.symm
  · intro E esize s
    obtain ⟨mf, mt, files, cf, cts, dl, now⟩ := s
    cases files with
    | nil =>
      refine ⟨rfl, ?_⟩
      intro s' evs c h
      injection h with h1 h2
      exact BatchResult.noConfusion h2
    | cons f rest =>
      by_cases hcf : cf = some f.name
      · have hread : FileBackingStore.ReadBatch esize ⟨mf, mt, f :: rest, cf, cts, dl, now⟩ =
            (⟨mf, mt, f :: rest, none, cts,
              dl ++ f.lines.filterMap FileLine.corruptRaw, now⟩,
              .batch (f.lines.filterMap FileLine.okEvent)
                (FileBackingStore.commitFile esize f.name)) := by
          unfold FileBackingStore.ReadBatch
          dsimp only
          rw [if_pos hcf]
        refine ⟨by rw [hread], ?_⟩
        intro s' evs c h
        rw [hread] at h
        injection h with h1 h2
        injection h2 with h3 h4
        subst h1
        subst h3
        have hread2 : FileBackingStore.ReadBatch esize
            ⟨mf, mt, f :: rest, none, cts,
              dl ++ f.lines.filterMap FileLine.corruptRaw, now⟩ =
            (⟨mf, mt, f :: rest, none, cts,
              (dl ++ f.lines.filterMap FileLine.corruptRaw) ++
                f.lines.filterMap FileLine.corruptRaw, now⟩,
              .batch (f.lines.filterMap FileLine.okEvent)
                (FileBackingStore.commitFile esize f.name)) := by
          unfold FileBackingStore.ReadBatch
          dsimp only
          rw [if_neg (by simp)]
        exact ⟨_, _, hread2⟩
      · have hread : FileBackingStore.ReadBatch esize ⟨mf, mt, f :: rest, cf, cts, dl, now⟩ =
            (⟨mf, mt, f :: rest, cf, cts,
              dl ++ f.lines.filterMap FileLine.corruptRaw, now⟩,
              .batch (f.lines.filterMap FileLine.okEvent)
                (FileBackingStore.commitFile esize f.name)) := by
          unfold FileBackingStore.ReadBatch
          dsimp only
          rw [if_neg hcf]
        refine ⟨by rw [hread], ?_⟩
        intro s' evs c h
        rw [hread] at h
        injection h with h1 h2
        injection h2 with h3 h4
        subst h1
        subst h3
        have hread2 : FileBackingStore.ReadBatch esize
            ⟨mf, mt, f :: rest, cf, cts,
              dl ++ f.lines.filterMap FileLine.corruptRaw, now⟩ =
            (⟨mf, mt, f :: rest, cf, cts,
              (dl ++ f.lines.filterMap FileLine.corruptRaw) ++
                f.lines.filterMap FileLine.corruptRaw, now⟩,
              .batch (f.lines.filterMap FileLine.okEvent)
                (FileBackingStore.commitFile esize f.name)) := by
          unfold FileBackingStore.ReadBatch
          dsimp only
          rw [if_neg hcf]
        exact ⟨_, _, hread2⟩

/-- Witness for C6 at concrete stores: a one-event memory store, a two-row SQL
store with batch size 1, and a one-file file store. -/
theorem c6_uncommitted_read_safety_witness :
    ([4] = (⟨2, [4]⟩ : InMemoryBackingStore Nat).events) ∧
    ([10] = (((⟨"t", 1, 5, 2, [(0, 10), (1, 11)]⟩ :
      SQLBackingStore Nat).rows.take 1).map Prod.snd)) ∧
    (∃ s'' c', FileBackingStore.ReadBatch (E := Nat) (fun _ => 1)
        (⟨10, 0, [⟨5, [.ok 3]⟩], none, 1, [], 6⟩ : FileBackingStore Nat)
        = (s'', .batch [3] c')) := by
  refine ⟨?_, ?_, ?_⟩
  · exact c6_uncommitted_read_safety.1 Nat ⟨2, [4]⟩ [4]
      (fun s' => { s' with events := [] }) rfl
  · exact c6_uncommitted_read_safety.2.1 Nat ⟨"t", 1, 5, 2, [(0, 10), (1, 11)]⟩ [10]
      (fun s' => { s' with rows := s'.rows.filter (fun r =>
        !((([((0 : Nat), (10 : Nat))]).map Prod.fst).contains r.1)) }) rfl
  · exact (c6_uncommitted_read_safety.2.2 Nat (fun _ => 1)
      ⟨10, 0, [⟨5, [.ok 3]⟩], none, 1, [], 6⟩).2
      ⟨10, 0, [⟨5, [.ok 3]⟩], none, 1, [], 6⟩ [3]
      (FileBackingStore.commitFile (fun _ => 1) 5) rfl

/-- In every drain trace entry for a non-empty batch, the commit flag is set
exactly when every event of the batch published; holds for any starting
`anyBatchDrained` accumulator. -/
theorem drainLoop_committed_iff (rb : σ → σ × BatchResult σ E) (pub : E → Bool) :
    ∀ (fuel : Nat) (s : σ) (acc : Bool) (evs : List E) (cm : Bool),
      (evs, cm) ∈ (drainLoop rb pub fuel s acc).trace → evs ≠ [] →
      (cm = true ↔ evs.all pub = true) := by
  intro fuel
  induction fuel with
  | zero =>
    intro s acc evs cm hmem hne
    simp [drainLoop] at hmem
  | succ fuel ih =>
    intro s acc evs cm hmem hne
    rcases hrb : rb s with ⟨s', res⟩
    simp only [drainLoop, hrb] at hmem
    cases res with
    | readError m => simp at hmem
    | noEvents => simp at hmem
    | batch evs' commit =>
      dsimp only at hmem
      by_cases hie : evs'.isEmpty
      · rw [if_pos hie] at hmem
        simp at hmem
        obtain ⟨h1, h2⟩ := hmem
        rw [List.isEmpty_iff] at hie
        exact absurd (h1.trans hie) hne
      · rw [if_neg hie] at hmem
        by_cases hall : evs'.all pub
        · rw [if_pos hall] at hmem
          simp at hmem
          rcases hmem with ⟨h1, h2⟩ | hmem
          · subst h1; subst h2
            simp [hall]
          · exact ih _ _ _ _ hmem hne
        · rw [if_neg hall] at hmem
          simp at hmem
          obtain ⟨h1, h2⟩ := hmem
          subst h1
          simp [h2, hall]

/-- A batch whose publish failed is the last entry of the drain trace: the
drain pass stops at the first failure. -/
theorem drainLoop_failure_last (rb : σ → σ × BatchResult σ E) (pub : E → Bool) :
    ∀ (fuel : Nat) (s : σ) (acc : Bool) (tr1 : List (List E × Bool))
      (evs : List E) (tr2 : List (List E × Bool)),
      (drainLoop rb pub fuel s acc).trace = tr1 ++ (evs, false) :: tr2 →
      tr2 = [] := by
  intro fuel
  induction fuel with
  | zero =>
    intro s acc tr1 evs tr2 h
    simp [drainLoop] at h
  | succ fuel ih =>
    intro s acc tr1 evs tr2 h
    rcases hrb : rb s with ⟨s', res⟩
    simp only [drainLoop, hrb] at h
    cases res with
    | readError m => simp at h
    | noEvents => simp at h
    | batch evs' commit =>
      dsimp only at h
      by_cases hie : evs'.isEmpty
      · rw [if_pos hie] at h
        rcases tr1 with _ | ⟨a, tr1⟩ <;> simp_all
      · rw [if_neg hie] at h
        by_cases hall : evs'.all pub
        · rw [if_pos hall] at h
          rcases tr1 with _ | ⟨a, tr1⟩
          · simp at h
          · simp at h
            exact ih (commit s') true tr1 evs tr2 h.2
        · rw [if_neg hall] at h
          rcases tr1 with _ | ⟨a, tr1⟩ <;> simp_all

/-- The `anyBatchDrained` return value of a drain pass is true iff it started
true or some non-empty batch was committed during the pass. -/
theorem drainLoop_drained_iff (rb : σ → σ × BatchResult σ E) (pub : E → Bool) :
    ∀ (fuel : Nat) (s : σ) (acc : Bool),
      ((drainLoop rb pub fuel s acc).drained = true ↔
        (acc = true ∨ ∃ evs, (evs, true) ∈ (drainLoop rb pub fuel s acc).trace ∧
          evs ≠ [])) := by
  intro fuel
  induction fuel with
  | zero =>
    intro s acc
    simp [drainLoop]
  | succ fuel ih =>
    intro s acc
    rcases hrb : rb s with ⟨s', res⟩
    simp only [drainLoop, hrb]
    cases res with
    | readError m => simp
    | noEvents => simp
    | batch evs' commit =>
      dsimp only
      by_cases hie : evs'.isEmpty
      · rw [if_pos hie]
        rw [List.isEmpty_iff] at hie
        subst hie
        simp
      · rw [if_neg hie]
        have hne' : evs' ≠ [] := by
          intro hcon
          subst hcon
          exact hie rfl
        by_cases hall : evs'.all pub
        · rw [if_pos hall]
          dsimp only
          constructor
          · intro _
            exact Or.inr ⟨evs', by simp, hne'⟩
          · intro _
            rw [ih]
            exact Or.inl rfl
        · rw [if_neg hall]
          simp

/-- C4: drain atomicity. In a drain pass (trace of `drainBackingStore`):
every non-empty batch is committed iff all its events published; a failed
batch ends the pass (it is the last trace entry); `anyBatchDrained` is
returned true iff some non-empty batch was fully published and committed;
and on the drain tick a set backpressure flag is cleared iff the pass
reported a drained batch. -/
theorem c4_drain_atomicity :
    ∀ (σ E : Type) (rb : σ → σ × BatchResult σ E) (pub : E → Bool)
      (fuel : Nat) (s : σ),
      (∀ evs cm, (evs, cm) ∈ (drainLoop rb pub fuel s false).trace →
        evs ≠ [] → (cm = true ↔ evs.all pub = true)) ∧
      (∀ (tr1 : List (List E × Bool)) (evs : List E)
          (tr2 : List (List E × Bool)), (drainLoop rb pub fuel s false).trace
          = tr1 ++ (evs, false) :: tr2 → tr2 = []) ∧
      ((drainLoop rb pub fuel s false).drained = true ↔
        ∃ evs, (evs, true) ∈ (drainLoop rb pub fuel s false).trace ∧ evs ≠ []) ∧
      (∀ st : TrailState σ, st.store = s → st.backingStoreFull = true →
        ((onDrainTick rb pub fuel st).backingStoreFull = false ↔
          (drainLoop rb pub fuel s false).drained = true)) := by
  intro σ E rb pub fuel s
  refine ⟨?_, ?_, ?_, ?_⟩
  · intro evs cm hmem hne
    exact drainLoop_committed_iff rb pub fuel s false evs cm hmem hne
  · intro tr1 evs tr2 h
    exact drainLoop_failure_last rb pub fuel s false tr1 evs tr2 h
  · rw [drainLoop_drained_iff rb pub fuel s false]
    simp
  · intro st hs hfull
    subst hs
    simp [onDrainTick, hfull]

/-- Witness for C4 with a two-batch store (batches `[1, 2]` then `[30]`) and a
publisher that accepts events below 10: the first batch commits, the failing
second batch ends the pass, and the pass still reports a drained batch,
clearing the flag. -/
theorem c4_drain_atomicity_witness :
    ((true = true) ↔ ([1, 2].all (fun n => n < 10) = true)) ∧
    (([] : List (List Nat × Bool)) = []) ∧
    ((drainLoop (fun s : List (List Nat) =>
        (s, match s with
            | [] => .noEvents
            | b :: rest => .batch b (fun _ => rest)))
        (fun n => n < 10) 5 [[1, 2], [30]] false).drained = true ↔
      ∃ evs, (evs, true) ∈ (drainLoop (fun s : List (List Nat) =>
        (s, match s with
            | [] => .noEvents
            | b :: rest => .batch b (fun _ => rest)))
        (fun n => n < 10) 5 [[1, 2], [30]] false).trace ∧ evs ≠ []) := by
  refine ⟨?_, ?_, ?_⟩
  · exact (c4_drain_atomicity (List (List Nat)) Nat
      (fun s => (s, match s with
        | [] => .noEvents
        | b :: rest => .batch b (fun _ => rest)))
      (fun n => n < 10) 5 [[1, 2], [30]]).1 [1, 2] true (by decide) (by decide)
  · exact (c4_drain_atomicity (List (List Nat)) Nat
      (fun s => (s, match s with
        | [] => .noEvents
        | b :: rest => .batch b (fun _ => rest)))
      (fun n => n < 10) 5 [[1, 2], [30]]).2.1 [([1, 2], true)] [30] [] (by decide)
  · exact (c4_drain_atomicity (List (List Nat)) Nat
      (fun s => (s, match s with
        | [] => .noEvents
        | b :: rest => .batch b (fun _ => rest)))
      (fun n => n < 10) 5 [[1, 2], [30]]).2.2.1

/-! ### Buffer file name ordering (C8) -/

/-- `decDigits` of a single digit. -/
theorem decDigits_of_lt_ten (n : Nat) (h : n < 10) : decDigits n = [n] := by
  rw [decDigits]
  exact dif_pos h

/-- `decDigits` of a multi-digit number: digits of the quotient, then the
last digit. -/
theorem decDigits_of_ge_ten (n : Nat) (h : ¬ n < 10) :
    decDigits n = decDigits (n / 10) ++ [n % 10] := by
  rw [decDigits]
  exact dif_neg h

/-- The decimal digits are digits. -/
theorem decDigits_lt_ten : ∀ n, ∀ d ∈ decDigits n, d < 10 := by
  intro n
  induction n using Nat.strong_induction_on with
  | _ n ih =>
    by_cases h : n < 10
    · rw [decDigits_of_lt_ten n h]
      intro d hd
      simp at hd
      omega
    · rw [decDigits_of_ge_ten n h]
      intro d hd
      rcases List.mem_append.mp hd with hd | hd
      · exact ih (n / 10) (Nat.div_lt_self (by omega) (by omega)) d hd
      · simp at hd
        subst hd
        exact Nat.mod_lt _ (by omega)

/-- `decDigits` is never empty. -/
theorem decDigits_ne_nil (n : Nat) : decDigits n ≠ [] := by
  by_cases h : n < 10
  · rw [decDigits_of_lt_ten n h]
    simp
  · rw [decDigits_of_ge_ten n h]
    simp

/-- A shared prefix does not affect the lexicographic comparison. -/
theorem lexLt_append_same [LinearOrder α] (p l1 l2 : List α) :
    lexLt (p ++ l1) (p ++ l2) = lexLt l1 l2 := by
  induction p with
  | nil => rfl
  | cons a p ih =>
    show lexLt (a :: (p ++ l1)) (a :: (p ++ l2)) = lexLt l1 l2
    rw [lexLt, if_neg (lt_irrefl a), if_neg (lt_irrefl a), ih]

/-- Lexicographic order between equal-length lists is preserved by appending
arbitrary suffixes: the lists already differ at some shared position. -/
theorem lexLt_append_left [LinearOrder α] :
    ∀ (l1 l2 s1 s2 : List α), l1.length = l2.length → lexLt l1 l2 = true →
      lexLt (l1 ++ s1) (l2 ++ s2) = true := by
  intro l1
  induction l1 with
  | nil =>
    intro l2 s1 s2 hlen h
    cases l2 with
    | nil => exact absurd h (by simp [lexLt])
    | cons b l2 => simp at hlen
  | cons a l1 ih =>
    intro l2 s1 s2 hlen h
    cases l2 with
    | nil => simp at hlen
    | cons b l2 =>
      rw [lexLt] at h
      show lexLt (a :: (l1 ++ s1)) (b :: (l2 ++ s2)) = true
      rw [lexLt]
      by_cases hab : a < b
      · rw [if_pos hab]
      · rw [if_neg hab] at h ⊢
        by_cases hba : b < a
        · rw [if_pos hba] at h
          exact absurd h (by simp)
        · rw [if_neg hba] at h ⊢
          exact ih l2 s1 s2 (by simpa using hlen) h

/-- ASCII digit characters compare exactly like the digits themselves. -/
theorem digitChar_lt_iff (a b : Nat) (ha : a < 10) (hb : b < 10) :
    (digitChar a < digitChar b) ↔ a < b := by
  interval_cases a <;> interval_cases b <;> decide

/-- Mapping digit lists to their ASCII characters preserves lexicographic
comparison. -/
theorem lexLt_map_digitChar :
    ∀ (l1 l2 : List Nat), (∀ d ∈ l1, d < 10) → (∀ d ∈ l2, d < 10) →
      lexLt (l1.map digitChar) (l2.map digitChar) = lexLt l1 l2 := by
  intro l1
  induction l1 with
  | nil =>
    intro l2 h1 h2
    cases l2 <;> rfl
  | cons a l1 ih =>
    intro l2 h1 h2
    cases l2 with
    | nil => rfl
    | cons b l2 =>
      have ha : a < 10 := h1 a (by simp)
      have hb : b < 10 := h2 b (by simp)
      show lexLt (digitChar a :: l1.map digitChar)
        (digitChar b :: l2.map digitChar) = lexLt (a :: l1) (b :: l2)
      rw [lexLt, lexLt]
      by_cases hab : a < b
      · rw [if_pos hab, if_pos ((digitChar_lt_iff a b ha hb).mpr hab)]
      · rw [if_neg hab, if_neg (fun hc => hab ((digitChar_lt_iff a b ha hb).mp hc))]
        by_cases hba : b < a
        · rw [if_pos hba, if_pos ((digitChar_lt_iff b a hb ha).mpr hba)]
        · rw [if_neg hba, if_neg (fun hc => hba ((digitChar_lt_iff b a hb ha).mp hc))]
          exact ih l2 (fun d hd => h1 d (by simp [hd])) (fun d hd => h2 d (by simp [hd]))

/-- Equal-width decimal representations compare lexicographically like the
numbers themselves. -/
theorem decDigits_lexLt : ∀ (b a : Nat), a < b →
    (decDigits a).length = (decDigits b).length →
    lexLt (decDigits a) (decDigits b) = true := by
  intro b
  induction b using Nat.strong_induction_on with
  | _ b ih =>
    intro a hab hlen
    by_cases hb : b < 10
    · have ha : a < 10 := lt_trans hab hb
      rw [decDigits_of_lt_ten a ha, decDigits_of_lt_ten b hb]
      rw [lexLt, if_pos hab]
    · by_cases ha : a < 10
      · exfalso
        rw [decDigits_of_lt_ten a ha, decDigits_of_ge_ten b hb] at hlen
        have h1 : 0 < (decDigits (b / 10)).length :=
          List.length_pos.mpr (decDigits_ne_nil (b / 10))
        rw [List.length_append, List.length_singleton, List.length_singleton] at hlen
        omega
      · rw [decDigits_of_ge_ten a ha, decDigits_of_ge_ten b hb] at hlen ⊢
        have hlen' : (decDigits (a / 10)).length = (decDigits (b / 10)).length := by
          simp at hlen
          omega
        have hq : a / 10 ≤ b / 10 := Nat.div_le_div_right (le_of_lt hab)
        rcases lt_or_eq_of_le hq with hq | hq
        · exact lexLt_append_left _ _ _ _ hlen'
            (ih (b / 10) (Nat.div_lt_self (by omega) (by omega)) (a / 10) hq hlen')
        · rw [hq, lexLt_append_same]
          have hmod : a % 10 < b % 10 := by
            have h1 := Nat.div_add_mod a 10
            have h2 := Nat.div_add_mod b 10
            omega
          rw [lexLt, if_pos hmod]

/-- C8 counterexample: for creation times `t1 = 9 < t2 = 10` (decimal widths
differ), the lexicographic order used by `listFiles` places the *younger*
file `audit-events-10.jsonl` before the older `audit-events-9.jsonl`:
lexicographic order equals chronological order only for equal-width
timestamps, not for arbitrary `t1 < t2`. -/
theorem c8_unequal_width_counterexample :
    (9 : Nat) < 10 ∧
    lexLt (fileNameChars 10) (fileNameChars 9) = true ∧
    lexLt (fileNameChars 9) (fileNameChars 10) = false := by
  have h9 : decDigits 9 = [9] := decDigits_of_lt_ten 9 (by omega)
  have h10 : decDigits 10 = [1, 0] := by
    rw [decDigits_of_ge_ten 10 (by omega)]
    norm_num
    rw [decDigits_of_lt_ten 1 (by omega)]
    rfl
  refine ⟨by omega, ?_, ?_⟩
  · rw [fileNameChars, fileNameChars, h9, h10]
    decide
  · rw [fileNameChars, fileNameChars, h9, h10]
    decide

/-- C8 amended: for buffer files created at `t1 < t2` whose decimal
timestamps have the same width — true of every `UnixNano` value the store can
produce, since all nanosecond timestamps from 2001 through the end of the
int64 range (year 2262) have exactly 19 digits — the name of the `t1` file
precedes the name of the `t2` file in the byte-wise lexicographic order that
`slices.Sort` uses in `listFiles`, so sort order equals chronological order. -/
theorem c8_filename_sort_is_chronological :
    ∀ t1 t2 : Nat, t1 < t2 →
      (decDigits t1).length = (decDigits t2).length →
      lexLt (fileNameChars t1) (fileNameChars t2) = true := by
  intro t1 t2 h hlen
  rw [fileNameChars, fileNameChars, List.append_assoc, List.append_assoc]
  rw [lexLt_append_same]
  apply lexLt_append_left
  · simp [hlen]
  · rw [lexLt_map_digitChar _ _ (decDigits_lt_ten t1) (decDigits_lt_ten t2)]
    exact decDigits_lexLt t2 t1 h hlen

/-- Witness for C8 at single-digit timestamps 3 < 7 (equal width). -/
theorem c8_filename_sort_is_chronological_witness :
    lexLt (fileNameChars 3) (fileNameChars 7) = true :=
  c8_filename_sort_is_chronological 3 7 (by omega)
    (by
      rw [decDigits_of_lt_ten 3 (by omega), decDigits_of_lt_ten 7 (by omega)]
      rfl)


/-! ### FIFO round-trips (C5) -/

/-- Writing a sequence into a memory store with room appends it in order. -/
theorem memWriteAll_ok :
    ∀ (E : Type) (es : List E) (s : InMemoryBackingStore E),
      s.events.length + es.length ≤ s.maxEvents →
      ∃ s', s.WriteAll es = .ok s' ∧ s'.events = s.events ++ es ∧
        s'.maxEvents = s.maxEvents := by
  intro E es
  induction es with
  | nil =>
    intro s h
    exact ⟨s, rfl, by simp, rfl⟩
  | cons e es ih =>
    intro s h
    have hlt : ¬ s.maxEvents ≤ s.events.length := by
      simp at h
      omega
    have hw : s.Write e = .ok ⟨s.maxEvents, s.events ++ [e]⟩ := by
      simp [InMemoryBackingStore.Write, hlt]
    obtain ⟨s', h1, h2, h3⟩ := ih ⟨s.maxEvents, s.events ++ [e]⟩ (by simp at h ⊢; omega)
    refine ⟨s', ?_, ?_, h3⟩
    · rw [InMemoryBackingStore.WriteAll, hw]
      exact h1
    · rw [h2]
      simp

/-- Draining the memory store yields its event slice (one batch reads
everything, its commit empties the store). -/
theorem memDrainAll_eq :
    ∀ (E : Type) (s : InMemoryBackingStore E),
      drainAll InMemoryBackingStore.ReadBatchS 2 s = s.events := by
  intro E s
  rcases hEv : s.events with _ | ⟨e, es⟩
  · have hrb : s.ReadBatch = .noEvents := by
      simp [InMemoryBackingStore.ReadBatch, hEv]
    simp [drainAll, InMemoryBackingStore.ReadBatchS, hrb, hEv]
  · have hie : s.events.isEmpty = false := by rw [hEv]; rfl
    have hrb : s.ReadBatch = .batch s.events (fun s' => { s' with events := [] }) := by
      simp [InMemoryBackingStore.ReadBatch, hie]
    simp only [drainAll, InMemoryBackingStore.ReadBatchS, hrb]
    have hrb2 : InMemoryBackingStore.ReadBatch
        (⟨s.maxEvents, []⟩ : InMemoryBackingStore E) = .noEvents := rfl
    simp [drainAll, InMemoryBackingStore.ReadBatchS, hrb2, hEv]

/-- Writing a sequence into a SQL store with room and fresh ids appends its
payloads in order, keeping the ids distinct. -/
theorem sqlWriteAll_ok :
    ∀ (E : Type) (es : List E) (s : SQLBackingStore E),
      (s.rows.map Prod.fst).Nodup →
      (∀ id ∈ s.rows.map Prod.fst, id < s.nextId) →
      s.rows.length + es.length ≤ s.maxEvents →
      ∃ s', s.WriteAll es = .ok s' ∧
        s'.rows.map Prod.snd = s.rows.map Prod.snd ++ es ∧
        (s'.rows.map Prod.fst).Nodup ∧
        s'.batchSize = s.batchSize ∧ s'.maxEvents = s.maxEvents := by
  intro E es
  induction es with
  | nil =>
    intro s hnd hbnd h
    exact ⟨s, rfl, by simp, hnd, rfl, rfl⟩
  | cons e es ih =>
    intro s hnd hbnd h
    have hlt : ¬ s.maxEvents ≤ s.rows.length := by
      simp at h
      omega
    have hw : s.Write e = .ok ⟨s.tableName, s.batchSize, s.maxEvents,
        s.nextId + 1, s.rows ++ [(s.nextId, e)]⟩ := by
      simp [SQLBackingStore.Write, hlt]
    have hnd' : ((s.rows ++ [(s.nextId, e)]).map Prod.fst).Nodup := by
      rw [List.map_append]
      rw [List.nodup_append]
      refine ⟨hnd, by simp, ?_⟩
      intro a ha hb
      simp at hb
      subst hb
      exact absurd (hbnd _ ha) (lt_irrefl _)
    have hbnd' : ∀ id ∈ (s.rows ++ [(s.nextId, e)]).map Prod.fst,
        id < s.nextId + 1 := by
      intro id hid
      rw [List.map_append] at hid
      rcases List.mem_append.mp hid with hid | hid
      · exact Nat.lt_succ_of_lt (hbnd id hid)
      · simp at hid
        omega
    obtain ⟨s', h1, h2, h3, h4, h5⟩ := ih ⟨s.tableName, s.batchSize, s.maxEvents,
      s.nextId + 1, s.rows ++ [(s.nextId, e)]⟩ hnd' hbnd' (by simp at h ⊢; omega)
    refine ⟨s', ?_, ?_, h3, h4, h5⟩
    · rw [SQLBackingStore.WriteAll, hw]
      exact h1
    · rw [h2]
      simp

/-- With distinct ids, the commit's `DELETE ... WHERE id = ANY(batch ids)`
removes exactly the batch prefix. -/
theorem sql_filter_drop :
    ∀ (E : Type) (rows : List (Nat × E)) (b : Nat),
      (rows.map Prod.fst).Nodup →
      rows.filter (fun r => !(((rows.take b).map Prod.fst).contains r.1)) =
        rows.drop b := by
  intro E rows b hnd
  have hsplit : rows.map Prod.fst =
      (rows.take b).map Prod.fst ++ (rows.drop b).map Prod.fst := by
    rw [← List.map_append, List.take_append_drop]
  rw [hsplit] at hnd
  have hdisj := (List.nodup_append.mp hnd).2.2
  have h1 : ∀ r ∈ rows.take b, r.1 ∈ List.take b (rows.map Prod.fst) := by
    intro r hr
    rw [← List.map_take]
    exact List.mem_map_of_mem _ hr
  have h2 : ∀ r ∈ rows.drop b, r.1 ∉ List.take b (rows.map Prod.fst) := by
    intro r hr hc
    rw [← List.map_take] at hc
    exact hdisj hc (List.mem_map_of_mem _ hr)
  have ha : (rows.take b).filter
      (fun r => !(((rows.take b).map Prod.fst).contains r.1)) = [] :=
    List.filter_eq_nil_iff.mpr (fun r hr => by simp [h1 r hr])
  have hb : (rows.drop b).filter
      (fun r => !(((rows.take b).map Prod.fst).contains r.1)) = rows.drop b :=
    List.filter_eq_self.mpr (fun r hr => by simp [h2 r hr])
  have key : (rows.take b ++ rows.drop b).filter
      (fun r => !(((rows.take b).map Prod.fst).contains r.1)) = rows.drop b := by
    rw [List.filter_append, ha, hb, List.nil_append]
  rw [List.take_append_drop] at key
  exact key

/-- Draining the SQL store yields all payloads in row order, batch by batch. -/
theorem sqlDrainAll_eq :
    ∀ (E : Type) (fuel : Nat) (s : SQLBackingStore E),
      (s.rows.map Prod.fst).Nodup → 1 ≤ s.batchSize → s.rows.length < fuel →
      drainAll SQLBackingStore.ReadBatchS fuel s = s.rows.map Prod.snd := by
  intro E fuel
  induction fuel with
  | zero =>
    intro s hnd hb hlen
    omega
  | succ fuel ih =>
    intro s hnd hb hlen
    rcases hEv : s.rows with _ | ⟨r, rest⟩
    · have hrb : s.ReadBatch = .noEvents := by
        simp [SQLBackingStore.ReadBatch, hEv]
      simp [drainAll, SQLBackingStore.ReadBatchS, hrb, hEv]
    · have hpe : (s.rows.take s.batchSize).isEmpty = false := by
        rw [List.isEmpty_eq_false]
        intro hc
        have := congrArg List.length hc
        rw [List.length_take, hEv] at this
        simp at this
        omega
      have hrb : s.ReadBatch = .batch ((s.rows.take s.batchSize).map Prod.snd)
          (fun s' : SQLBackingStore E =>
            { s' with rows := s'.rows.filter (fun q =>
                !(((s.rows.take s.batchSize).map Prod.fst).contains q.1)) }) := by
        simp [SQLBackingStore.ReadBatch, hpe]
      simp only [drainAll, SQLBackingStore.ReadBatchS, hrb]
      have hfd : s.rows.filter (fun q =>
          !(((s.rows.take s.batchSize).map Prod.fst).contains q.1)) =
          s.rows.drop s.batchSize := sql_filter_drop E s.rows s.batchSize hnd
      rw [hfd]
      have hnd2 : ((s.rows.drop s.batchSize).map Prod.fst).Nodup := by
        have hsplit : s.rows.map Prod.fst =
            (s.rows.take s.batchSize).map Prod.fst ++
              (s.rows.drop s.batchSize).map Prod.fst := by
          rw [← List.map_append, List.take_append_drop]
        rw [hsplit] at hnd
        exact (List.nodup_append.mp hnd).2.1
      have hlen2 : (s.rows.drop s.batchSize).length < fuel := by
        rw [List.length_drop]
        rw [hEv] at hlen ⊢
        simp at hlen ⊢
        omega
      have hrec := ih ⟨s.tableName, s.batchSize, s.maxEvents, s.nextId,
        s.rows.drop s.batchSize⟩ hnd2 hb hlen2
      dsimp only at hrec
      rw [hrec, ← List.map_append, List.take_append_drop, hEv]

/-- The current file, having the maximal name among pairwise-ascending names,
is the last file of the directory listing. -/
theorem file_last_of_max (E : Type) (files : List (BufFile E)) (c : Nat)
    (f : BufFile E)
    (hpw : files.Pairwise (fun a b => a.name < b.name))
    (hle : ∀ g ∈ files, g.name ≤ c)
    (hfind : files.find? (fun g => g.name = c) = some f) :
    ∃ fs0, files = fs0 ++ [f] ∧ f.name = c ∧ ∀ g ∈ fs0, g.name < c := by
  have hmem : f ∈ files := List.mem_of_find?_eq_some hfind
  have hfc : f.name = c := by
    have := List.find?_some hfind
    simpa using this
  rcases List.eq_nil_or_concat files with h | ⟨fs0, a, h⟩
  · subst h
    simp at hmem
  · rw [List.concat_eq_append] at h
    subst h
    have hpair := List.pairwise_append.mp hpw
    have hlt : ∀ g ∈ fs0, g.name < a.name := by
      intro g hg
      exact hpair.2.2 g hg a (by simp)
    have hfa : f = a := by
      rcases List.mem_append.mp hmem with hf | hf
      · exfalso
        have h1 := hlt f hf
        have h2 := hle a (by simp)
        omega
      · simpa using hf
    subst hfa
    refine ⟨fs0, rfl, hfc, ?_⟩
    intro g hg
    have := hlt g hg
    omega

/-- One successful write into an unlimited (`max_total_size = 0`) file store:
the invariant is preserved and the flattened event sequence grows by exactly
the written event at the end. -/
theorem fileWriteE_ok (E : Type) (esize : E → Nat) (s : FileBackingStore E)
    (e : E) (h0 : s.maxTotalSize = 0) (hinv : s.WriteInv) :
    ∃ s', FileBackingStore.WriteE esize s e = .ok s' ∧ s'.WriteInv ∧
      s'.flattenEvents = s.flattenEvents ++ [e] ∧ s'.maxTotalSize = 0 := by
  obtain ⟨mf, mt, files, cf, cts, dl, now⟩ := s
  dsimp only at h0
  subst h0
  obtain ⟨hpw, hlt, hcur, hlines⟩ := hinv
  dsimp only at hpw hlt hcur hlines
  have hany : (files.any (fun f => f.name = now)) = false := by
    rw [List.any_eq_false]
    intro f hf
    have := hlt f hf
    simp
    omega
  have hfreshInv : FileBackingStore.WriteInv
      ⟨mf, 0, files ++ [⟨now, [.ok e]⟩], some now, cts + (esize e : Int), dl,
        now + 1⟩ := by
    refine ⟨?_, ?_, ?_, ?_⟩
    · rw [List.pairwise_append]
      refine ⟨hpw, by simp, ?_⟩
      intro a ha b hb
      simp at hb
      subst hb
      exact hlt a ha
    · intro f hf
      rcases List.mem_append.mp hf with hf | hf
      · have := hlt f hf
        dsimp only
        omega
      · simp at hf
        subst hf
        dsimp only
        omega
    · intro c hc f hf
      dsimp only at hc
      injection hc with hc
      subst hc
      rcases List.mem_append.mp hf with hf | hf
      · exact le_of_lt (hlt f hf)
      · simp at hf
        subst hf
        exact le_refl _
    · intro f hf
      rcases List.mem_append.mp hf with hf | hf
      · exact hlines f hf
      · simp at hf
        subst hf
        exact ⟨by simp, by intro l hl; simp at hl; subst hl; exact ⟨e, rfl⟩⟩
  have hfreshFlatten : FileBackingStore.flattenEvents
      (⟨mf, 0, files ++ [⟨now, [.ok e]⟩], some now, cts + (esize e : Int), dl,
        now + 1⟩ : FileBackingStore E) =
      FileBackingStore.flattenEvents
        (⟨mf, 0, files, cf, cts, dl, now⟩ : FileBackingStore E) ++ [e] := by
    unfold FileBackingStore.flattenEvents
    dsimp only
    rw [List.map_append, List.flatten_append]
    rfl
  rcases hcf : cf with _ | cur
  · subst hcf
    have hw : FileBackingStore.WriteE esize ⟨mf, 0, files, none, cts, dl, now⟩ e =
        .ok ⟨mf, 0, files ++ [⟨now, [.ok e]⟩], some now, cts + (esize e : Int), dl,
          now + 1⟩ := by
      unfold FileBackingStore.WriteE FileBackingStore.Write
      dsimp only
      rw [if_neg (by simp), hany]
      rfl
    exact ⟨_, hw, hfreshInv, hfreshFlatten, rfl⟩
  · subst hcf
    rcases hff : files.find? (fun g => g.name = cur) with _ | f
    · have hw : FileBackingStore.WriteE esize ⟨mf, 0, files, some cur, cts, dl, now⟩ e =
          .ok ⟨mf, 0, files ++ [⟨now, [.ok e]⟩], some now, cts + (esize e : Int), dl,
            now + 1⟩ := by
        unfold FileBackingStore.WriteE FileBackingStore.Write
        dsimp only
        rw [hff]
        dsimp only
        rw [if_neg (by simp), hany]
        rfl
      exact ⟨_, hw, hfreshInv, hfreshFlatten, rfl⟩
    · by_cases hsz : mf ≤ f.size esize
      · have hw : FileBackingStore.WriteE esize ⟨mf, 0, files, some cur, cts, dl, now⟩ e =
            .ok ⟨mf, 0, files ++ [⟨now, [.ok e]⟩], some now, cts + (esize e : Int), dl,
              now + 1⟩ := by
          unfold FileBackingStore.WriteE FileBackingStore.Write
          dsimp only
          rw [hff]
          dsimp only
          rw [if_pos hsz]
          dsimp only
          rw [if_neg (by simp), hany]
          rfl
        exact ⟨_, hw, hfreshInv, hfreshFlatten, rfl⟩
      · obtain ⟨fs0, hfiles, hfc, hmax⟩ := file_last_of_max E files cur f hpw
          (hcur cur rfl) hff
        have hanyT : (files.any (fun g => g.name = cur)) = true := by
          rw [List.any_eq_true]
          exact ⟨f, List.mem_of_find?_eq_some hff, by simp [hfc]⟩
        have hmap : files.map (fun g =>
            if g.name = cur then { g with lines := g.lines ++ [.ok e] } else g) =
            fs0 ++ [{ f with lines := f.lines ++ [.ok e] }] := by
          rw [hfiles, List.map_append]
          have hm1 : fs0.map (fun g =>
              if g.name = cur then { g with lines := g.lines ++ [.ok e] } else g) =
              fs0 := by
            have hcg : ∀ g ∈ fs0, (if g.name = cur then
                { g with lines := g.lines ++ [FileLine.ok e] } else g) = id g := by
              intro g hg
              have := hmax g hg
              rw [if_neg (by omega)]
              rfl
            rw [List.map_congr_left hcg, List.map_id]
          have hm2 : [f].map (fun g =>
              if g.name = cur then { g with lines := g.lines ++ [.ok e] } else g) =
              [{ f with lines := f.lines ++ [.ok e] }] := by
            simp [hfc]
          rw [hm1, hm2]
        have hw : FileBackingStore.WriteE esize ⟨mf, 0, files, some cur, cts, dl, now⟩ e =
            .ok ⟨mf, 0, fs0 ++ [{ f with lines := f.lines ++ [.ok e] }], some cur,
              cts + (esize e : Int), dl, now⟩ := by
          unfold FileBackingStore.WriteE FileBackingStore.Write
          dsimp only
          rw [hff]
          dsimp only
          rw [if_neg hsz]
          dsimp only
          rw [if_neg (by simp), hanyT]
          dsimp only
          rw [hmap]
          rfl
        refine ⟨_, hw, ⟨?_, ?_, ?_, ?_⟩, ?_, rfl⟩
        · rw [List.pairwise_append]
          have hpw0 : fs0.Pairwise (fun a b => a.name < b.name) := by
            rw [hfiles, List.pairwise_append] at hpw
            exact hpw.1
          refine ⟨hpw0, by simp, ?_⟩
          intro a ha b hb
          simp at hb
          subst hb
          dsimp only
          have := hmax a ha
          omega
        · intro g hg
          dsimp only
          rcases List.mem_append.mp hg with hg | hg
          · exact hlt g (by rw [hfiles]; exact List.mem_append.mpr (Or.inl hg))
          · simp at hg
            subst hg
            dsimp only
            exact hlt f (by rw [hfiles]; simp)
        · intro c hc g hg
          dsimp only at hc
          injection hc with hc
          subst hc
          rcases List.mem_append.mp hg with hg | hg
          · have := hmax g hg
            omega
          · simp at hg
            subst hg
            dsimp only
            omega
        · intro g hg
          rcases List.mem_append.mp hg with hg | hg
          · exact hlines g (by rw [hfiles]; exact List.mem_append.mpr (Or.inl hg))
          · simp at hg
            subst hg
            dsimp only
            have hf := hlines f (by rw [hfiles]; simp)
            refine ⟨by simp, ?_⟩
            intro l hl
            rcases List.mem_append.mp hl with hl | hl
            · exact hf.2 l hl
            · simp at hl
              subst hl
              exact ⟨e, rfl⟩
        · unfold FileBackingStore.flattenEvents
          dsimp only
          rw [hfiles, List.map_append, List.map_append,
            List.flatten_append, List.flatten_append]
          simp [List.filterMap_append, FileLine.okEvent]

/-- Writing a sequence into an unlimited file store succeeds and appends the
events, in order, to the flattened file contents. -/
theorem fileWriteAll_ok (E : Type) (esize : E → Nat) :
    ∀ (es : List E) (s : FileBackingStore E), s.maxTotalSize = 0 → s.WriteInv →
      ∃ s', FileBackingStore.WriteAll esize s es = .ok s' ∧ s'.WriteInv ∧
        s'.flattenEvents = s.flattenEvents ++ es ∧ s'.maxTotalSize = 0 := by
  intro es
  induction es with
  | nil =>
    intro s h0 hinv
    exact ⟨s, rfl, hinv, by simp, h0⟩
  | cons e es ih =>
    intro s h0 hinv
    obtain ⟨s1, hw, hinv1, hfl1, h01⟩ := fileWriteE_ok E esize s e h0 hinv
    obtain ⟨s', hwa, hinv', hfl', h0'⟩ := ih s1 h01 hinv1
    refine ⟨s', ?_, hinv', ?_, h0'⟩
    · rw [FileBackingStore.WriteAll, hw]
      exact hwa
    · rw [hfl', hfl1]
      simp

/-- `ReadBatch` on a non-empty file store: the oldest file's parsed events
with the commit deleting it; only `currentFile` and the dead letters change. -/
theorem fileReadBatch_cons (E : Type) (esize : E → Nat) (mf mt : Nat)
    (f : BufFile E) (rest : List (BufFile E)) (cf : Option Nat) (cts : Int)
    (dl : List String) (now : Nat) :
    ∃ cf', FileBackingStore.ReadBatch esize ⟨mf, mt, f :: rest, cf, cts, dl, now⟩ =
      (⟨mf, mt, f :: rest, cf', cts,
        dl ++ f.lines.filterMap FileLine.corruptRaw, now⟩,
       .batch (f.lines.filterMap FileLine.okEvent)
         (FileBackingStore.commitFile esize f.name)) := by
  by_cases hcf : cf = some f.name
  · refine ⟨none, ?_⟩
    unfold FileBackingStore.ReadBatch
    dsimp only
    rw [if_pos hcf]
  · refine ⟨cf, ?_⟩
    unfold FileBackingStore.ReadBatch
    dsimp only
    rw [if_neg hcf]

/-- Draining the file store yields its flattened contents, oldest file first. -/
theorem fileDrainAll_eq (E : Type) (esize : E → Nat) :
    ∀ (fuel : Nat) (s : FileBackingStore E),
      s.files.Pairwise (fun a b => a.name < b.name) →
      s.files.length < fuel →
      drainAll (FileBackingStore.ReadBatch esize) fuel s = s.flattenEvents := by
  intro fuel
  induction fuel with
  | zero =>
    intro s hpw hlen
    omega
  | succ fuel ih =>
    intro s hpw hlen
    obtain ⟨mf, mt, files, cf, cts, dl, now⟩ := s
    dsimp only at hpw hlen ⊢
    cases files with
    | nil =>
      simp [drainAll, FileBackingStore.ReadBatch, FileBackingStore.flattenEvents]
    | cons f rest =>
      obtain ⟨cf', hread⟩ := fileReadBatch_cons E esize mf mt f rest cf cts dl now
      simp only [drainAll, hread]
      have hnames : ∀ g ∈ rest, g.name ≠ f.name := by
        intro g hg
        have := (List.pairwise_cons.mp hpw).1 g hg
        omega
      have hfind : List.find? (fun g => g.name = f.name) (f :: rest) = some f :=
        List.find?_cons_of_pos _ (by simp)
      have hrestf : rest.filter (fun g => !(g.name = f.name : Bool)) = rest :=
        List.filter_eq_self.mpr (fun g hg => by simp [hnames g hg])
      obtain ⟨cts2, hcommit⟩ : ∃ cts2, FileBackingStore.commitFile esize f.name
          ⟨mf, mt, f :: rest, cf', cts,
            dl ++ f.lines.filterMap FileLine.corruptRaw, now⟩ =
          ⟨mf, mt, rest, cf', cts2,
            dl ++ f.lines.filterMap FileLine.corruptRaw, now⟩ := by
        unfold FileBackingStore.commitFile
        dsimp only
        rw [hfind]
        dsimp only
        refine ⟨if 0 < f.size esize then cts - (f.size esize : Int) else cts, ?_⟩
        rw [List.filter_cons_of_neg (by simp), hrestf]
      rw [hcommit]
      have hrec := ih ⟨mf, mt, rest, cf', cts2,
        dl ++ f.lines.filterMap FileLine.corruptRaw, now⟩
        (List.pairwise_cons.mp hpw).2 (by simp at hlen ⊢; omega)
      rw [hrec]
      unfold FileBackingStore.flattenEvents
      dsimp only
      rw [List.map_cons, List.flatten_cons]

/-- C5: FIFO. For each backing-store variant, writing `E1..En` in order into
a fresh store with room (no concurrent writers) and then repeatedly calling
`ReadBatch` followed by its commit until the store reports empty yields
exactly `E1..En` in the same relative order, split only by batch chunking;
for all `n ≥ 0`. -/
theorem c5_fifo_all_variants :
    (∀ (E : Type) (maxE : Nat) (es : List E), es.length ≤ maxE →
      ∃ s, InMemoryBackingStore.WriteAll ⟨maxE, []⟩ es = .ok s ∧
        drainAll InMemoryBackingStore.ReadBatchS 2 s = es) ∧
    (∀ (E : Type) (tn : String) (b maxE : Nat) (es : List E),
      1 ≤ b → es.length ≤ maxE →
      ∃ s, SQLBackingStore.WriteAll ⟨tn, b, maxE, 0, []⟩ es = .ok s ∧
        drainAll SQLBackingStore.ReadBatchS (es.length + 1) s = es) ∧
    (∀ (E : Type) (esize : E → Nat) (mfs : Nat) (es : List E),
      ∃ s, FileBackingStore.WriteAll esize (FileBackingStore.initEmpty E mfs 0) es
          = .ok s ∧
        drainAll (FileBackingStore.ReadBatch esize) (s.files.length + 1) s = es) := by
  refine ⟨?_, ?_, ?_⟩
  · intro E maxE es hlen
    obtain ⟨s, h1, h2, h3⟩ := memWriteAll_ok E es ⟨maxE, []⟩ (by simpa using hlen)
    refine ⟨s, h1, ?_⟩
    rw [memDrainAll_eq, h2]
    simp
  · intro E tn b maxE es hb hlen
    obtain ⟨s, h1, h2, h3, h4, h5⟩ := sqlWriteAll_ok E es ⟨tn, b, maxE, 0, []⟩
      (by simp) (by simp) (by simpa using hlen)
    refine ⟨s, h1, ?_⟩
    have hrl : s.rows.length = es.length := by
      have := congrArg List.length h2
      simpa using this
    rw [sqlDrainAll_eq E (es.length + 1) s h3 (by rw [h4]; exact hb) (by omega)]
    simpa using h2
  · intro E esize mfs es
    have hinv0 : (FileBackingStore.initEmpty E mfs 0).WriteInv := by
      refine ⟨List.Pairwise.nil, by simp [FileBackingStore.initEmpty], ?_,
        by simp [FileBackingStore.initEmpty]⟩
      intro c hc
      exact absurd hc (by simp [FileBackingStore.initEmpty])
    obtain ⟨s, h1, h2, h3, h4⟩ := fileWriteAll_ok E esize es
      (FileBackingStore.initEmpty E mfs 0) rfl hinv0
    refine ⟨s, h1, ?_⟩
    rw [fileDrainAll_eq E esize (s.files.length + 1) s h2.1 (by omega), h3]
    simp [FileBackingStore.flattenEvents, FileBackingStore.initEmpty]

/-- Witness for C5: three events through a memory store with room for 3, a
SQL store with batch size 2, and a file store rotating at 1 byte. -/
theorem c5_fifo_all_variants_witness :
    (∃ s, InMemoryBackingStore.WriteAll ⟨3, []⟩ [10, 20, 30] = .ok s ∧
      drainAll InMemoryBackingStore.ReadBatchS 2 s = [10, 20, 30]) ∧
    (∃ s, SQLBackingStore.WriteAll ⟨"audit_events", 2, 3, 0, []⟩ [10, 20, 30]
        = .ok s ∧
      drainAll SQLBackingStore.ReadBatchS ([10, 20, 30].length + 1) s
        = [10, 20, 30]) ∧
    (∃ s, FileBackingStore.WriteAll (fun _ => 2)
        (FileBackingStore.initEmpty Nat 1 0) [10, 20, 30] = .ok s ∧
      drainAll (FileBackingStore.ReadBatch (fun _ => 2)) (s.files.length + 1) s
        = [10, 20, 30]) :=
  ⟨c5_fifo_all_variants.1 Nat 3 [10, 20, 30] (by decide),
   c5_fifo_all_variants.2.1 Nat "audit_events" 2 3 [10, 20, 30] (by decide) (by decide),
   c5_fifo_all_variants.2.2 Nat (fun _ => 2) 1 [10, 20, 30]⟩

/-- C2 (failing input for the in-memory store): write event `1`; `ReadBatch`
returns `[1]` with a commit callback; write event `2` (now buffered); invoking
the commit empties the whole store — event `2`, which was written after the
`ReadBatch` and never returned by it, is removed as well, contradicting the
claim that commit removes exactly the returned events. -/
theorem c2_memory_commit_drops_later_write :
    ∃ commit,
      (⟨10, [1]⟩ : InMemoryBackingStore Nat).ReadBatch = .batch [1] commit ∧
      (⟨10, [1]⟩ : InMemoryBackingStore Nat).Write 2 = .ok ⟨10, [1, 2]⟩ ∧
      2 ∈ ([1, 2] : List Nat) ∧
      (commit ⟨10, [1, 2]⟩).events = [] := by
  exact ⟨fun s' => { s' with events := [] }, rfl, rfl, by decide, rfl⟩

end GoBitsAudit
